import Mathlib

/-!
Verification of the interval-scheduling demo application (src/app.py).

The application keeps a process-wide list `patients` of tuples
`(name, start, end)` and exposes HTTP endpoints over it.  The core algorithm
is `greedy_schedule`: sort the intervals by ascending end time with Python's
stable `sorted`, then scan once keeping an interval exactly when its `start`
is at least the end of the last accepted interval, starting from the literal
sentinel `last_end = -1`.

Below, each Python function is embedded as a pure Lean function: the mutable
global collection becomes an explicit argument, HTTP error responses become
`Except.error` with the literal message string, and the random draws of
`/api/auto` become oracle arguments.
-/

namespace App

/-- An appointment record, modelling the Python tuple `(name, start, end)`
appended by `add_patient` (src/app.py line 51). -/
structure Interval where
  name : String
  start : Int
  «end» : Int
deriving DecidableEq, Repr

/-- The sort-key relation of `sorted(patients_list, key=lambda x: x[2])`:
compare intervals by their `end` component. -/
def endLe (a b : Interval) : Prop := a.«end» ≤ b.«end»

instance : DecidableRel endLe := fun a b => Int.decLe a.«end» b.«end»

instance : IsTotal Interval endLe := ⟨fun a b => Int.le_total a.«end» b.«end»⟩

instance : IsTrans Interval endLe := ⟨fun _ _ _ h h' => le_trans h h'⟩

/-- `sorted(patients_list, key=lambda x: x[2])` (src/app.py line 17).
Python's `sorted` is a stable sort by the key; a stable sort's output is
uniquely determined by the key and the original positions, so the stable
insertion sort by `endLe` is an exact model of it. -/
def sortedByEnd (patients_list : List Interval) : List Interval :=
  List.insertionSort endLe patients_list

/-- The accepted-so-far/last-end scan of `greedy_schedule`'s for-loop
(src/app.py lines 21-25): keep `p` exactly when `p.start >= last_end`, and
then continue with `last_end` set to `p.end`. -/
def greedyGo (last_end : Int) : List Interval → List Interval
  | [] => []
  | p :: ps => if last_end ≤ p.start then p :: greedyGo p.«end» ps else greedyGo last_end ps

/-- `greedy_schedule(patients_list)` (src/app.py lines 15-26): sort by end
time, then scan with the sentinel `last_end = -1`. -/
def greedy_schedule (patients_list : List Interval) : List Interval :=
  greedyGo (-1) (sortedByEnd patients_list)

/-- Two intervals do not overlap when one ends no later than the other
starts (half-open ranges). -/
def noOverlap (a b : Interval) : Prop := a.«end» ≤ b.start ∨ b.«end» ≤ a.start

/-- The in-order non-overlap relation used along the scheduler's output:
the earlier interval ends no later than the later one starts. -/
def chainRel (a b : Interval) : Prop := a.«end» ≤ b.start

/-- A parsed body of a POST /api/patients request.  `name` is `none` when the
field is missing (Python's `data.get('name', '')` then yields `''`);
`start`/`end` are `none` exactly when Python's `int(...)` conversion raises,
i.e. when the supplied value is not representable as an integer. -/
structure AddRequest where
  name : Option String
  start : Option Int
  «end» : Option Int

/-- Python's `str.strip()`: remove leading and trailing whitespace. -/
def pyStrip (s : String) : String :=
  ⟨((s.data.dropWhile Char.isWhitespace).reverse.dropWhile Char.isWhitespace).reverse⟩

/-- `add_patient()` (src/app.py lines 37-52) as a function of the parsed
request and the current collection.  The `int(...)` conversions are attempted
first (their failure returns the first error message); then
`if not name or start >= end` rejects; otherwise the validated tuple is
appended to the collection. -/
def add_patient (data : AddRequest) (patients : List Interval) :
    Except String (List Interval) :=
  let name := pyStrip (data.name.getD "")
  match data.start, data.«end» with
  | some start, some e =>
      if name = "" ∨ start ≥ e then Except.error "Invalid name or time values"
      else Except.ok (patients ++ [⟨name, start, e⟩])
  | _, _ => Except.error "Start and End must be integers"

/-- `schedule()` (src/app.py lines 73-78): on an empty collection answer the
HTTP 400 error `'No patients'` without invoking the scheduler, otherwise
return `greedy_schedule` of the current collection. -/
def schedule (patients : List Interval) : Except String (List Interval) :=
  if patients.isEmpty then Except.error "No patients"
  else Except.ok (greedy_schedule patients)

/-- `auto_generate()` (src/app.py lines 61-70): clear the collection, then
append 8 intervals; the i-th has name `random.choice(names) + str(i+1)`,
start `random.randint(1, 8)` and end `start + random.randint(1, 4)`.  The
random draws are modelled by oracles giving the i-th result of
`random.choice(names)`, of `random.randint(1, 8)` and of
`random.randint(1, 4)`; the returned list replaces the old collection. -/
def auto_generate (choiceName : Nat → String) (randStart : Nat → Int)
    (randDur : Nat → Int) : List Interval :=
  (List.range 8).map fun i =>
    { name := choiceName i ++ toString (i + 1)
      start := randStart i
      «end» := randStart i + randDur i }

theorem greedyGo_nil (e : Int) : greedyGo e [] = [] := rfl

theorem greedyGo_cons (e : Int) (p : Interval) (ps : List Interval) :
    greedyGo e (p :: ps) =
      if e ≤ p.start then p :: greedyGo p.«end» ps else greedyGo e ps := rfl

/-- The scheduler's scan keeps a subsequence of the list it scans. -/
theorem greedyGo_sublist (e : Int) (l : List Interval) :
    (greedyGo e l).Sublist l := by
  induction l generalizing e with
  | nil => simp [greedyGo]
  | cons p ps ih =>
      rw [greedyGo_cons]
      by_cases h : e ≤ p.start
      · simpa [h] using (ih p.«end»).cons₂ p
      · simpa [h] using (ih e).cons p

/-- The first interval kept by the scan starts no earlier than the sentinel
it was scanned with. -/
theorem greedyGo_head_start (e : Int) (l : List Interval) (p : Interval)
    (t : List Interval) (h : greedyGo e l = p :: t) : e ≤ p.start := by
  induction l generalizing e with
  | nil => simp [greedyGo] at h
  | cons q qs ih =>
      rw [greedyGo_cons] at h
      by_cases hq : e ≤ q.start
      · rw [if_pos hq] at h
        cases h
        exact hq
      · rw [if_neg hq] at h
        exact ih e h

/-- Consecutive intervals kept by the scan do not overlap: each starts no
earlier than the previous one ends. -/
theorem greedyGo_chain' (e : Int) (l : List Interval) :
    List.Chain' chainRel (greedyGo e l) := by
  induction l generalizing e with
  | nil => simp [greedyGo]
  | cons p ps ih =>
      rw [greedyGo_cons]
      by_cases h : e ≤ p.start
      · rw [if_pos h]
        rcases hg : greedyGo p.«end» ps with _ | ⟨q, t⟩
        · simp
        · exact List.Chain'.cons (greedyGo_head_start p.«end» ps q t hg) (hg ▸ ih p.«end»)
      · rw [if_neg h]
        exact ih e

/-- In a list sorted by end time, consecutive non-overlap extends to every
in-order pair. -/
theorem pairwise_chainRel_of_sorted (l : List Interval)
    (hs : List.Pairwise endLe l) (hc : List.Chain' chainRel l) :
    List.Pairwise chainRel l := by
  induction l with
  | nil => simp
  | cons x t ih =>
      rcases List.pairwise_cons.mp hs with ⟨hx, ht⟩
      cases t with
      | nil => simp
      | cons y t' =>
          rcases List.chain'_cons.mp hc with ⟨hxy, hyt⟩
          have hyt' : List.Pairwise chainRel (y :: t') := ih ht hyt
          refine List.pairwise_cons.mpr ⟨?_, hyt'⟩
          intro z hz
          rcases List.mem_cons.mp hz with rfl | hz'
          · exact hxy
          · have hyz : chainRel y z := (List.pairwise_cons.mp hyt').1 z hz'
            have hxey : endLe x y := hx y (List.mem_cons_self y t')
            exact le_trans hxey hyz

/-- A list whose consecutive members do not overlap and whose first member
starts no earlier than the sentinel is returned unchanged by the scan. -/
theorem greedyGo_of_chain' (e : Int) (l : List Interval)
    (hc : List.Chain' chainRel l)
    (hh : ∀ p t, l = p :: t → e ≤ p.start) : greedyGo e l = l := by
  induction l generalizing e with
  | nil => rfl
  | cons p t ih =>
      rw [greedyGo_cons, if_pos (hh p t rfl)]
      congr 1
      cases t with
      | nil => rfl
      | cons q t' =>
          rcases List.chain'_cons.mp hc with ⟨hpq, hq⟩
          exact ih p.«end» hq (fun r s hrs => by cases hrs; exact hpq)

/-- The scheduler's output is sorted by end time. -/
theorem greedy_schedule_sorted (l : List Interval) :
    List.Pairwise endLe (greedy_schedule l) :=
  List.Pairwise.sublist (greedyGo_sublist (-1) (sortedByEnd l))
    (List.sorted_insertionSort endLe l)

/-- Every in-order pair of the scheduler's output is non-overlapping. -/
theorem greedy_schedule_chainRel (l : List Interval) :
    List.Pairwise chainRel (greedy_schedule l) :=
  pairwise_chainRel_of_sorted _ (greedy_schedule_sorted l)
    (greedyGo_chain' (-1) (sortedByEnd l))

/-- C2 counterexample: for the input [("a",2,5), ("b",0,1)] the scheduler
    returns [("b",0,1), ("a",2,5)], which is not a subsequence of the input
    (the two elements appear in the opposite order), refuting the claim that
    the output is always a subsequence of the input. -/
theorem C2_counterexample :
    ¬ (greedy_schedule [⟨"a", 2, 5⟩, ⟨"b", 0, 1⟩]).Sublist
        [⟨"a", 2, 5⟩, ⟨"b", 0, 1⟩] := by
  decide

/-- C2 (amended): for every input list, the output of `greedy_schedule` is a
    subsequence of the input as reordered by the stable end-time sort (hence
    a sub-multiset of the input), with no two elements overlapping and
    ordered by nondecreasing end time: for every pair of accepted intervals
    (a, b) with a before b in the output, b.start ≥ a.end and
    a.end ≤ b.end. -/
theorem C2_greedy_schedule_subsequence_nonoverlapping (l : List Interval) :
    (greedy_schedule l).Sublist (sortedByEnd l) ∧
      (greedy_schedule l).Subperm l ∧
      List.Pairwise (fun a b => a.«end» ≤ b.start ∧ a.«end» ≤ b.«end»)
        (greedy_schedule l) := by
  refine ⟨greedyGo_sublist _ _, ?_, ?_⟩
  · exact (greedyGo_sublist _ _).subperm.trans (List.perm_insertionSort endLe l).subperm
  · exact (greedy_schedule_chainRel l).and (greedy_schedule_sorted l)

/-- C3 counterexample: the interval ("a",-5,-2) satisfies start < end, yet on
    the single-element input [("a",-5,-2)] the scheduler returns [] rather
    than the input: the code's sentinel is the literal -1, which is not less
    than this valid start. -/
theorem C3_counterexample :
    (Interval.start ⟨"a", -5, -2⟩ < Interval.«end» ⟨"a", -5, -2⟩) ∧
      greedy_schedule [⟨"a", -5, -2⟩] ≠ [⟨"a", -5, -2⟩] := by
  decide

/-- C3 (amended): for every single-element input whose interval satisfies
    start < end and whose start is at least the code's sentinel -1 (so in
    particular any interval with nonnegative start), the scheduler accepts
    the interval: the output equals the input. -/
theorem C3_single_interval_accepted (p : Interval)
    (_hvalid : p.start < p.«end») (hsent : -1 ≤ p.start) :
    greedy_schedule [p] = [p] := by
  show greedyGo (-1) (sortedByEnd [p]) = [p]
  have h1 : sortedByEnd [p] = [p] := rfl
  rw [h1, greedyGo_cons, if_pos hsent, greedyGo_nil]

theorem C3_single_interval_accepted_witness :
    greedy_schedule [⟨"a", 1, 3⟩] = [⟨"a", 1, 3⟩] :=
  C3_single_interval_accepted ⟨"a", 1, 3⟩ (by decide) (by decide)

/-- C4: called on the empty collection the scheduler returns the empty list,
    while the /api/schedule endpoint signals the 'No patients' error on an
    empty collection instead of invoking the scheduler (and on a non-empty
    collection returns the scheduler's result). -/
theorem C4_empty_schedule (ps : List Interval) :
    greedy_schedule [] = [] ∧
      schedule [] = Except.error "No patients" ∧
      (ps ≠ [] → schedule ps = Except.ok (greedy_schedule ps)) := by
  refine ⟨rfl, rfl, fun h => ?_⟩
  simp [schedule, h]

theorem C4_empty_schedule_witness :
    schedule [⟨"a", 1, 3⟩] = Except.ok (greedy_schedule [⟨"a", 1, 3⟩]) :=
  (C4_empty_schedule [⟨"a", 1, 3⟩]).2.2 (by simp)

/-- C5: an interval whose start exactly equals the current last accepted end
    is treated as non-overlapping and accepted (the comparison is ≥, not
    strict >); in particular for the input [("a",1,3), ("b",3,5)] both
    intervals are accepted. -/
theorem C5_touching_boundary_accepted (p : Interval) (rest : List Interval) :
    greedyGo p.start (p :: rest) = p :: greedyGo p.«end» rest ∧
      greedy_schedule [⟨"a", 1, 3⟩, ⟨"b", 3, 5⟩] = [⟨"a", 1, 3⟩, ⟨"b", 3, 5⟩] := by
  constructor
  · rw [greedyGo_cons, if_pos (le_refl p.start)]
  · decide

/-- C7: `greedy_schedule` is deterministic (a pure function: equal inputs give
    equal outputs) and idempotent: rerunning it on its own output returns
    that output unchanged. -/
theorem C7_greedy_schedule_deterministic_idempotent (xs : List Interval) :
    greedy_schedule xs = greedy_schedule xs ∧
      greedy_schedule (greedy_schedule xs) = greedy_schedule xs := by
  refine ⟨rfl, ?_⟩
  have h1 : sortedByEnd (greedy_schedule xs) = greedy_schedule xs :=
    List.Sorted.insertionSort_eq (greedy_schedule_sorted xs)
  show greedyGo (-1) (sortedByEnd (greedy_schedule xs)) = greedy_schedule xs
  rw [h1]
  refine greedyGo_of_chain' _ _ (greedyGo_chain' (-1) (sortedByEnd xs)) ?_
  intro p t h
  exact greedyGo_head_start (-1) (sortedByEnd xs) p t h

/-- Staying-ahead lemma: over a list sorted by end time, the scan from a
sentinel e keeps at least as many intervals as any subsequence whose members
pairwise do not overlap (in order) and all start no earlier than e. -/
theorem greedyGo_maximal (L : List Interval) (hs : List.Pairwise endLe L) :
    ∀ (e : Int) (s : List Interval), s.Sublist L → List.Pairwise chainRel s →
      (∀ p ∈ s, e ≤ p.start) → s.length ≤ (greedyGo e L).length := by
  induction L with
  | nil =>
      intro e s hsub _ _
      simp [List.sublist_nil.mp hsub, greedyGo]
  | cons p L' ih =>
      rcases List.pairwise_cons.mp hs with ⟨hp, hs'⟩
      intro e s hsub hchain hge
      rw [greedyGo_cons]
      by_cases hacc : e ≤ p.start
      · rw [if_pos hacc]
        cases hsub with
        | cons _ hsubL' =>
            cases s with
            | nil => simp
            | cons q s' =>
                rcases List.pairwise_cons.mp hchain with ⟨hq, hchain'⟩
                have hqL' : q ∈ L' := hsubL'.subset (List.mem_cons_self q s')
                have hs'sub : s'.Sublist L' :=
                  (List.sublist_cons_self q s').trans hsubL'
                have hge' : ∀ r ∈ s', p.«end» ≤ r.start := fun r hr =>
                  le_trans (hp q hqL') (hq r hr)
                have hlen := ih hs' p.«end» s' hs'sub hchain' hge'
                simpa using Nat.succ_le_succ hlen
        | cons₂ _ hsubL' =>
            rcases List.pairwise_cons.mp hchain with ⟨hps, hchain'⟩
            have hlen := ih hs' p.«end» _ hsubL' hchain' hps
            simpa using Nat.succ_le_succ hlen
      · rw [if_neg hacc]
        cases hsub with
        | cons _ hsubL' => exact ih hs' e s hsubL' hchain hge
        | cons₂ _ hsubL' =>
            exact absurd (hge p (List.mem_cons_self p _)) hacc

/-- C1 counterexample: every interval of [("a",-5,-2)] satisfies start < end
    and the input is itself a pairwise non-overlapping subset of itself, yet
    the scheduler keeps none of it (the sentinel -1 exceeds the start), so a
    non-overlapping subset of strictly greater cardinality than the output
    exists, refuting maximality as stated. -/
theorem C1_counterexample :
    (∀ p ∈ [(⟨"a", -5, -2⟩ : Interval)], p.start < p.«end») ∧
      List.Sublist [(⟨"a", -5, -2⟩ : Interval)] [⟨"a", -5, -2⟩] ∧
      List.Pairwise noOverlap [(⟨"a", -5, -2⟩ : Interval)] ∧
      (greedy_schedule [⟨"a", -5, -2⟩]).length <
        ([(⟨"a", -5, -2⟩ : Interval)]).length := by
  refine ⟨by decide, List.Sublist.refl _, by simp, by decide⟩

/-- C1 (amended): for every list of intervals each satisfying start < end and
    start ≥ -1 (the code's sentinel; in particular any nonnegative start),
    the output of greedy_schedule is a maximum-cardinality pairwise
    non-overlapping subset of the input: no pairwise non-overlapping
    subsequence of the input has strictly greater cardinality than the
    output. -/
theorem C1_greedy_schedule_maximal (l : List Interval)
    (hvalid : ∀ p ∈ l, p.start < p.«end») (hsent : ∀ p ∈ l, -1 ≤ p.start)
    (s : List Interval) (hsub : s.Sublist l)
    (hno : List.Pairwise noOverlap s) :
    s.length ≤ (greedy_schedule l).length := by
  have hperm : (sortedByEnd l).Perm l := List.perm_insertionSort endLe l
  have hsp : s.Subperm (sortedByEnd l) :=
    hsub.subperm.trans hperm.symm.subperm
  obtain ⟨t, hts, htL⟩ := hsp
  have htmem : ∀ p ∈ t, p ∈ l := fun p hp => hperm.subset (htL.subset hp)
  have htno : List.Pairwise noOverlap t :=
    (hts.pairwise_iff fun h => Or.symm h).mpr hno
  have htsorted : List.Pairwise endLe t :=
    List.Pairwise.sublist htL (List.sorted_insertionSort endLe l)
  have htchain : List.Pairwise chainRel t := by
    refine List.Pairwise.imp_of_mem ?_ (htsorted.and htno)
    intro a b ha _ hab
    rcases hab with ⟨hle, h1 | h2⟩
    · exact h1
    · have hva : a.start < a.«end» := hvalid a (htmem a ha)
      exact absurd (lt_of_lt_of_le hva (le_trans hle h2)) (lt_irrefl _)
  have htge : ∀ p ∈ t, (-1 : Int) ≤ p.start := fun p hp => hsent p (htmem p hp)
  have hlen := greedyGo_maximal (sortedByEnd l)
    (List.sorted_insertionSort endLe l) (-1) t htL htchain htge
  exact le_trans (le_of_eq hts.length_eq.symm) hlen

theorem C1_greedy_schedule_maximal_witness :
    1 ≤ (greedy_schedule [(⟨"a", 1, 3⟩ : Interval)]).length :=
  C1_greedy_schedule_maximal [⟨"a", 1, 3⟩] (by decide) (by decide)
    [⟨"a", 1, 3⟩] (List.Sublist.refl _) (by simp)

/-- C6: the add operation rejects any request whose start/end fail integer
    conversion, or whose (stripped) name is missing or empty, or whose
    interval has start = end or start > end, reporting an error (and thus
    returning no updated collection); a request passing these validations
    appends exactly the one validated interval to the collection. -/
theorem C6_add_patient_validation (data : AddRequest) (ps : List Interval) :
    (data.start = none ∨ data.«end» = none →
        add_patient data ps = Except.error "Start and End must be integers") ∧
      (pyStrip (data.name.getD "") = "" →
        ∃ msg, add_patient data ps = Except.error msg) ∧
      (∀ s e, data.start = some s → data.«end» = some e → e ≤ s →
        add_patient data ps = Except.error "Invalid name or time values") ∧
      (∀ s e, data.start = some s → data.«end» = some e →
        pyStrip (data.name.getD "") ≠ "" → s < e →
        add_patient data ps =
          Except.ok (ps ++ [⟨pyStrip (data.name.getD ""), s, e⟩])) := by
  obtain ⟨n, st, en⟩ := data
  refine ⟨?_, ?_, ?_, ?_⟩
  · rintro (rfl | rfl)
    · rfl
    · cases st <;> rfl
  · intro hname
    cases st with
    | none => exact ⟨_, rfl⟩
    | some s =>
        cases en with
        | none => exact ⟨_, rfl⟩
        | some e =>
            refine ⟨"Invalid name or time values", ?_⟩
            simp [add_patient, hname]
  · rintro s e rfl rfl h
    simp [add_patient, ge_iff_le, h]
  · rintro s e rfl rfl hname hlt
    have h2 : ¬ s ≥ e := not_le.mpr hlt
    simp [add_patient, hname, h2]

theorem C6_add_patient_validation_witness :
    add_patient ⟨some "Bob", some 1, some 3⟩ [] =
      Except.ok ([] ++ [⟨pyStrip ((some "Bob").getD ""), 1, 3⟩]) :=
  (C6_add_patient_validation ⟨some "Bob", some 1, some 3⟩ []).2.2.2 1 3
    rfl rfl (by decide) (by decide)

/-- C10: whatever the random draws (modelled as oracles whose values lie in
    the documented ranges of `random.randint`), /api/auto replaces the
    collection with exactly 8 intervals, each with 1 ≤ start ≤ 8 and
    start + 1 ≤ end ≤ start + 4, hence satisfying start < end. -/
theorem C10_auto_generate_invariant (choiceName : Nat → String)
    (randStart : Nat → Int) (randDur : Nat → Int)
    (hs : ∀ i, i < 8 → 1 ≤ randStart i ∧ randStart i ≤ 8)
    (hd : ∀ i, i < 8 → 1 ≤ randDur i ∧ randDur i ≤ 4) :
    (auto_generate choiceName randStart randDur).length = 8 ∧
      ∀ p ∈ auto_generate choiceName randStart randDur,
        p.start < p.«end» ∧ 1 ≤ p.start ∧ p.start ≤ 8 ∧
          p.start + 1 ≤ p.«end» ∧ p.«end» ≤ p.start + 4 := by
  constructor
  · simp [auto_generate]
  · intro p hp
    simp only [auto_generate, List.mem_map, List.mem_range] at hp
    obtain ⟨i, hi, rfl⟩ := hp
    obtain ⟨hs1, hs2⟩ := hs i hi
    obtain ⟨hd1, hd2⟩ := hd i hi
    refine ⟨?_, ?_, ?_, ?_, ?_⟩ <;> dsimp only <;> omega

theorem C10_auto_generate_invariant_witness :
    (auto_generate (fun _ => "Ram") (fun _ => 3) (fun _ => 2)).length = 8 :=
  (C10_auto_generate_invariant (fun _ => "Ram") (fun _ => 3) (fun _ => 2)
    (fun _ _ => by norm_num) (fun _ _ => by norm_num)).1

/-- With every interval valid (start < end), everything the scan keeps starts
no earlier than the sentinel it started from. -/
theorem greedyGo_mem_start (l : List Interval) :
    ∀ (e : Int), (∀ p ∈ l, p.start < p.«end») →
      ∀ q ∈ greedyGo e l, e ≤ q.start := by
  induction l with
  | nil => intro e _ q hq; simp [greedyGo] at hq
  | cons p ps ih =>
      intro e hv q hq
      rw [greedyGo_cons] at hq
      by_cases h : e ≤ p.start
      · rw [if_pos h] at hq
        rcases List.mem_cons.mp hq with rfl | hq'
        · exact h
        · have h2 := ih p.«end» (fun r hr => hv r (List.mem_cons_of_mem p hr)) q hq'
          have hvp := hv p (List.mem_cons_self p ps)
          omega
      · rw [if_neg h] at hq
        exact ih e (fun r hr => hv r (List.mem_cons_of_mem p hr)) q hq

/-- If interval y has the same start and end as a distinct interval x placed
before it in the scanned list, y occurs nowhere before x, and every interval
is valid, then the scan never keeps y: when x is kept, every later kept
interval starts at or after x.end > x.start = y.start; when x is skipped
because its start precedes the sentinel, y.start does too. -/
theorem greedyGo_skips_later_duplicate (x y : Interval)
    (hxy : x ≠ y) (hstart : x.start = y.start) (hend : x.«end» = y.«end») :
    ∀ (s1 : List Interval), y ∉ s1 → ∀ (s2 s3 : List Interval) (e : Int),
      (∀ p ∈ s1 ++ x :: (s2 ++ y :: s3), p.start < p.«end») →
      y ∉ greedyGo e (s1 ++ x :: (s2 ++ y :: s3)) := by
  intro s1
  induction s1 with
  | nil =>
      intro _ s2 s3 e hv
      simp only [List.nil_append] at hv ⊢
      rw [greedyGo_cons]
      by_cases hx : e ≤ x.start
      · rw [if_pos hx]
        intro hmem
        rcases List.mem_cons.mp hmem with h | h
        · exact hxy h.symm
        · have h2 := greedyGo_mem_start (s2 ++ y :: s3) x.«end»
            (fun r hr => hv r (List.mem_cons_of_mem x hr)) y h
          have hvx := hv x (List.mem_cons_self _ _)
          omega
      · rw [if_neg hx]
        intro hmem
        have h2 := greedyGo_mem_start (s2 ++ y :: s3) e
          (fun r hr => hv r (List.mem_cons_of_mem x hr)) y hmem
        omega
  | cons c t ih =>
      intro hy1 s2 s3 e hv
      have hyc : y ≠ c := fun h => hy1 (h ▸ List.mem_cons_self c t)
      have hyt : y ∉ t := fun h => hy1 (List.mem_cons_of_mem c h)
      simp only [List.cons_append] at hv ⊢
      rw [greedyGo_cons]
      by_cases hc : e ≤ c.start
      · rw [if_pos hc]
        intro hmem
        rcases List.mem_cons.mp hmem with h | h
        · exact hyc h
        · exact ih hyt s2 s3 c.«end»
            (fun r hr => hv r (List.mem_cons_of_mem c hr)) h
      · rw [if_neg hc]
        exact ih hyt s2 s3 e (fun r hr => hv r (List.mem_cons_of_mem c hr))

/-- Ordered insertion by end time does not disturb the subsequence of
intervals having any fixed end value: elements passed over end strictly
earlier than the inserted one. -/
theorem filter_orderedInsert_end (k : Int) (a : Interval) (l : List Interval) :
    (List.orderedInsert endLe a l).filter (fun p => p.«end» == k) =
      ((a :: l).filter fun p => p.«end» == k) := by
  induction l with
  | nil => rfl
  | cons b t ih =>
      by_cases hab : endLe a b
      · rw [List.orderedInsert, if_pos hab]
      · have hba : b.«end» < a.«end» := lt_of_not_le hab
        rw [List.orderedInsert, if_neg hab]
        by_cases hak : a.«end» = k
        · have hbk : ¬ b.«end» = k := by omega
          simp [List.filter_cons, hak, hbk, ih]
        · simp [List.filter_cons, hak, ih]

/-- The end-time sort is stable: for every end value k, the intervals whose
end equals k appear in the sorted output exactly as in the input (same
elements in the same relative order). -/
theorem filter_sortedByEnd (k : Int) (l : List Interval) :
    (sortedByEnd l).filter (fun p => p.«end» == k) =
      (l.filter fun p => p.«end» == k) := by
  induction l with
  | nil => rfl
  | cons a t ih =>
      have ih' : (List.insertionSort endLe t).filter (fun p => p.«end» == k) =
          (t.filter fun p => p.«end» == k) := ih
      show (List.orderedInsert endLe a (List.insertionSort endLe t)).filter _ = _
      rw [filter_orderedInsert_end, List.filter_cons, List.filter_cons, ih']

/-- A two-element subsequence splits its ambient list into three parts. -/
theorem sublist_pair_decomp {α : Type} {a b : α} {l : List α}
    (h : List.Sublist [a, b] l) :
    ∃ u v w, l = u ++ a :: (v ++ b :: w) := by
  induction l with
  | nil => cases h
  | cons c t ih =>
      cases h with
      | cons _ h' =>
          obtain ⟨u, v, w, rfl⟩ := ih h'
          exact ⟨c :: u, v, w, rfl⟩
      | cons₂ _ h' =>
          obtain ⟨v, w, rfl⟩ := List.append_of_mem (List.singleton_sublist.mp h')
          exact ⟨[], v, w, rfl⟩

/-- C9: the scheduler's sort is stable with ascending end as its sole key:
    for each end value k, the intervals whose end equals k appear in the
    sorted sequence exactly in their original relative input order.
    Consequently, when an interval b has the same (start, end) as a distinct
    interval a earlier in input order (and b occurs nowhere else), b is never
    accepted — among identical intervals only the earliest in input order can
    be kept — as the concrete run on [("a",1,3), ("b",1,3)] also shows. -/
theorem C9_stable_sort_first_duplicate_wins :
    (∀ (k : Int) (l : List Interval),
        (sortedByEnd l).filter (fun p => p.«end» == k) =
          (l.filter fun p => p.«end» == k)) ∧
      (∀ (l1 l2 l3 : List Interval) (a b : Interval),
        (∀ p ∈ l1 ++ a :: (l2 ++ b :: l3), p.start < p.«end») →
        a.start = b.start → a.«end» = b.«end» → a ≠ b →
        b ∉ l1 → b ∉ l2 → b ∉ l3 →
        b ∉ greedy_schedule (l1 ++ a :: (l2 ++ b :: l3))) ∧
      greedy_schedule [⟨"a", 1, 3⟩, ⟨"b", 1, 3⟩] = [⟨"a", 1, 3⟩] := by
  refine ⟨filter_sortedByEnd, ?_, by decide⟩
  intro l1 l2 l3 a b hv hstart hend hab hb1 hb2 hb3
  set l := l1 ++ a :: (l2 ++ b :: l3) with hl
  have habl : List.Sublist [a, b] l := by
    have h1 : List.Sublist [b] (l2 ++ b :: l3) :=
      List.singleton_sublist.mpr (List.mem_append_right l2 (List.mem_cons_self b l3))
    exact (h1.cons₂ a).trans (List.sublist_append_right l1 _)
  have habS : List.Sublist [a, b] (sortedByEnd l) :=
    List.pair_sublist_insertionSort (le_of_eq hend) habl
  obtain ⟨u, v, w, hS⟩ := sublist_pair_decomp habS
  have hpermS : (sortedByEnd l).Perm l := List.perm_insertionSort endLe l
  have hcount : (sortedByEnd l).count b = 1 := by
    rw [hpermS.count_eq]
    simp [hl, List.count_append, List.count_cons,
      List.count_eq_zero.mpr hb1, List.count_eq_zero.mpr hb2,
      List.count_eq_zero.mpr hb3, hab]
  have hbu : b ∉ u := by
    have h1 := hcount
    rw [hS] at h1
    simp [List.count_append, List.count_cons, hab] at h1
    exact List.count_eq_zero.mp (by omega)
  have hvS : ∀ p ∈ u ++ a :: (v ++ b :: w), p.start < p.«end» := by
    rw [← hS]
    exact fun p hp => hv p (hpermS.subset hp)
  show b ∉ greedyGo (-1) (sortedByEnd l)
  rw [hS]
  exact greedyGo_skips_later_duplicate a b hab hstart hend u hbu v w (-1) hvS

theorem C9_stable_sort_first_duplicate_wins_witness :
    (⟨"b", 1, 3⟩ : Interval) ∉ greedy_schedule [⟨"a", 1, 3⟩, ⟨"b", 1, 3⟩] := by
  have h := C9_stable_sort_first_duplicate_wins.2.1 [] [] []
    ⟨"a", 1, 3⟩ ⟨"b", 1, 3⟩ (by decide) rfl rfl (by decide)
    (by simp) (by simp) (by simp)
  simpa using h

end App
